import Mathlib

/-!
Verification of the persistent-shell engine of `shelly.py`.

The Python source is embedded shallowly: strings are Lean `String`s
(lists of characters), Python string methods (`strip`, `split`,
slicing, the `in` operator, `int()` parsing) are modelled by explicit
executable functions below, and the time/thread dependent parts of
`PersistentShell.run_command` are modelled by passing the finite
sequence of `(stdout, stderr)` chunk pairs that the drainer delivered
before the 30-second ceiling, together with the success of each write
to the shell's stdin.  All definitions are computable so that claims
can be evaluated on concrete inputs.
-/

/-- Membership in Python's `str` whitespace set (`str.strip`/`str.split`
strip exactly these ASCII characters for the inputs in scope). -/
def isPyWs (c : Char) : Bool :=
  c = ' ' || c = '\t' || c = '\n' || c = '\r' || c = '\x0b' || c = '\x0c'

/-- Characters of a string with trailing Python whitespace removed:
list-level model of Python `str.rstrip()`. -/
def dropEndWs (l : List Char) : List Char :=
  (l.reverse.dropWhile isPyWs).reverse

/-- List-level model of Python `str.strip()`. -/
def stripWs (l : List Char) : List Char :=
  dropEndWs (l.dropWhile isPyWs)

/-- Python `s.strip()`. -/
def pyStrip (s : String) : String := ⟨stripWs s.data⟩

/-- Python `s.rstrip()`. -/
def pyRstrip (s : String) : String := ⟨dropEndWs s.data⟩

/-- Boolean list-prefix test (model of Python `str.startswith` on
character lists). -/
def listPrefixB : List Char → List Char → Bool
  | [], _ => true
  | _ :: _, [] => false
  | a :: as, b :: bs => a == b && listPrefixB as bs

/-- Boolean substring test: model of Python's `needle in hay` for
strings, at the level of character lists. -/
def hasSub (needle : List Char) : List Char → Bool
  | [] => listPrefixB needle []
  | c :: rest => listPrefixB needle (c :: rest) || hasSub needle rest

/-- Python `needle in hay` on strings. -/
def pyIn (needle hay : String) : Bool := hasSub needle.data hay.data

/-- Model of Python `s.split('\n')`: splits at every newline, keeping
empty pieces (`"".split('\n') == ['']`). -/
def splitNl : List Char → List (List Char)
  | [] => [[]]
  | c :: rest =>
    if c = '\n' then [] :: splitNl rest
    else
      match splitNl rest with
      | [] => [[c]]
      | h :: t => (c :: h) :: t

/-- Model of Python `'\n'.join(pieces)`. -/
def joinNl : List (List Char) → List Char
  | [] => []
  | [p] => p
  | p :: rest => p ++ '\n' :: joinNl rest

/-- Splitting at every whitespace character (all pieces kept); the
model of Python's argumentless `str.split()` filters the empty pieces
out afterwards. -/
def splitWsAll : List Char → List (List Char)
  | [] => [[]]
  | c :: rest =>
    if isPyWs c then [] :: splitWsAll rest
    else
      match splitWsAll rest with
      | [] => [[c]]
      | h :: t => (c :: h) :: t

/-- Python `s.split()` (split on whitespace runs, no empty tokens). -/
def pySplitWs (s : String) : List String :=
  ((splitWsAll s.data).filter (fun p => !p.isEmpty)).map String.mk

/-- Python slice `l[-m//2:]` as it appears in `_truncate_output`: for
`m = 0` the index `-0//2` is `0` and the whole list is kept, otherwise
`-m//2 == -((m+1)//2)` keeps the last `(m+1)/2` elements. -/
def lastHalfSlice {α : Type} (m : Nat) (l : List α) : List α :=
  if m = 0 then l else l.drop (l.length - (m + 1) / 2)

/-- The omission marker line inserted by line-count truncation
(`shelly.py` line 593). -/
def truncMsg : String := "... (output truncated) ..."

/-- The omission marker text inserted by character-count truncation
(`shelly.py` line 601). -/
def charMsg : String := "\n\n... (output truncated) ...\n\n"

/-- Line-count stage of `Shelly._truncate_output` (lines 592-597):
`lines[:max_lines//2] + ['', '... (output truncated) ...', ''] +
lines[-max_lines//2:]` when there are more than `max_lines` lines. -/
def lineStage (maxLines : Nat) (lines : List (List Char)) : List (List Char) × Bool :=
  if lines.length > maxLines then
    (lines.take (maxLines / 2) ++ [[], truncMsg.data, []] ++ lastHalfSlice maxLines lines, true)
  else (lines, false)

/-- Character-count stage of `Shelly._truncate_output` (lines 600-602):
`output[:max_chars//2] + '\n\n... (output truncated) ...\n\n' +
output[-max_chars//2:]` when the text is longer than `max_chars`. -/
def charStage (maxChars : Nat) (l : List Char) : List Char × Bool :=
  if l.length > maxChars then
    (l.take (maxChars / 2) ++ charMsg.data ++ lastHalfSlice maxChars l, true)
  else (l, false)

/-- Embedding of `Shelly._truncate_output` (shelly.py lines 584-604).
`maxLines`/`maxChars` are the configured
`output_truncation.max_lines` / `.max_characters` ceilings; the second
component is the `was_truncated` flag. -/
def truncate_output (maxLines maxChars : Nat) (output : String) : String × Bool :=
  let r1 := lineStage maxLines (splitNl output.data)
  let out2 := joinNl r1.1
  let r2 := charStage maxChars out2
  (⟨r2.1⟩, r1.2 || r2.2)

/-- The fixed list of shell operators rejected by the authorization
gate (`shelly.py` line 515). -/
def shell_operators : List String :=
  [";", "&&", "||", "|", ">", "<", "&", "$(", "`"]

/-- The command's leading token: `command.strip().split()` and then the
first element (empty string when there is none), `shelly.py`
lines 529-530. -/
def base_command (command : String) : String :=
  (pySplitWs (pyStrip command)).headD ""

/-- The remainder after the leading token:
`command.strip()[len(base_command):].strip()` (`shelly.py` line 578). -/
def args_part (command : String) : String :=
  pyStrip ⟨(pyStrip command).data.drop (base_command command).length⟩

/-- The remainder after a multi-word greenlist entry:
`full_command_for_operator_check[len(green_item):].strip()`
(`shelly.py` line 571). -/
def remaining_after (greenItem strippedCommand : String) : String :=
  pyStrip ⟨strippedCommand.data.drop greenItem.length⟩

/-- Embedding of `Shelly._is_greenlisted` (shelly.py lines 504-582).
`validate_all` is the configured `validate_all_commands` flag and
`greenlist` the per-OS/per-shell allow-list already merged with the
`default` entries (the merge, lines 537-559, only assembles the list
from the external `config.json`, which is not part of the source
tree). -/
def is_greenlisted (validate_all : Bool) (greenlist : List String) (command : String) : Bool :=
  if validate_all then false
  else
    let fullCmd := pyStrip command
    let baseCmd := base_command command
    greenlist.any fun greenItem =>
      if pyIn " " greenItem then
        listPrefixB greenItem.data fullCmd.data &&
          !(shell_operators.any fun op => pyIn op (remaining_after greenItem fullCmd))
      else
        (baseCmd == greenItem) &&
          !(shell_operators.any fun op => pyIn op (args_part command))

example : base_command "ls -la" = "ls" := by decide
example : args_part "  git   push --force " = "push --force" := by decide
example : is_greenlisted false ["ls"] "ls -la" = true := by decide
example : is_greenlisted false ["ls"] "ls -la | grep x" = false := by decide
example : is_greenlisted true ["ls"] "ls" = false := by decide
example : is_greenlisted false ["doskey /history"] "doskey /history" = true := by decide
example : truncate_output 4 1000 "a\nb\nc\nd\ne" =
    ("a\nb\n\n... (output truncated) ...\n\nd\ne", true) := by decide
example : truncate_output 10 10 "abcdefghijkl" =
    ("abcde\n\n... (output truncated) ...\n\nhijkl", true) := by decide
example : truncate_output 10 100 "hello\nworld" = ("hello\nworld", false) := by decide

/-- Characters before the first occurrence of `sep` in `l` (the whole
list when `sep` does not occur): `l.split(sep)[0]` for non-empty
`sep`. -/
def takeBeforeFirst (sep : List Char) : List Char → List Char
  | [] => []
  | c :: rest =>
    if listPrefixB sep (c :: rest) then []
    else c :: takeBeforeFirst sep rest

/-- Characters after the first occurrence of `sep` in `l` (empty when
`sep` does not occur). Python `l.split(sep)[1]` for non-empty `sep` is
`takeBeforeFirst sep (afterFirst sep l)`. -/
def afterFirst (sep : List Char) : List Char → List Char
  | [] => []
  | c :: rest =>
    if listPrefixB sep (c :: rest) then (c :: rest).drop sep.length
    else afterFirst sep rest

/-- Numeric value of a decimal digit character. -/
def digitVal (c : Char) : Nat := c.toNat - '0'.toNat

/-- Continuation of the decimal-digit parser: accepts further digits,
with single underscores allowed between digits (Python `int()`
accepts `"1_0"`). -/
def pyDigitsGo (acc : Nat) : List Char → Option Nat
  | [] => some acc
  | '_' :: c :: rest =>
    if c.isDigit then pyDigitsGo (acc * 10 + digitVal c) rest else none
  | ['_'] => none
  | c :: rest =>
    if c.isDigit then pyDigitsGo (acc * 10 + digitVal c) rest else none

/-- Value of a non-empty ASCII digit sequence, `none` on anything
else. -/
def pyDigitsVal : List Char → Option Nat
  | [] => none
  | c :: rest => if c.isDigit then pyDigitsGo (digitVal c) rest else none

/-- Model of Python `int(s)` on ASCII input: surrounding whitespace and
one optional sign are allowed around a non-empty digit sequence;
`none` models the `ValueError` caught at `shelly.py` lines 249-254. -/
def pyParseInt (s : String) : Option Int :=
  match stripWs s.data with
  | '+' :: rest => (pyDigitsVal rest).map fun n => (n : Int)
  | '-' :: rest => (pyDigitsVal rest).map fun n => -(n : Int)
  | t => (pyDigitsVal t).map fun n => (n : Int)

/-- Embedding of the command suffix protocol of
`PersistentShell.run_command` (shelly.py lines 204-210): the text
written to the shell's stdin for a given shell type, completion
marker and command. -/
def full_command (shell_type marker command : String) : String :=
  if shell_type = "cmd" then
    command ++ "\necho " ++ marker ++ " %ERRORLEVEL%\n"
  else if shell_type = "powershell" then
    command ++ "; $LastExitCodeFromCmd = $LASTEXITCODE; echo \"" ++ marker
      ++ " $LastExitCodeFromCmd\"\n"
  else
    command ++ "\necho " ++ marker ++ " $?\n"

/-- Modelled from the spec: the dialect's exit-status variable named in
section 4.3 (a pure description of the wire protocol, used only to
compare the suffix built by `full_command` against the spec's
words). -/
def exit_status_var (shell_type : String) : String :=
  if shell_type = "cmd" then "%ERRORLEVEL%"
  else if shell_type = "powershell" then "$LASTEXITCODE"
  else "$?"

/-- Extraction of the exit-code field from the stdout chunk containing
the marker (shelly.py lines 235-247): text of
`parts[1].strip().split('\n')[0].strip()`, with the PowerShell
quote-stripping branch. -/
def extract_code_str (shell_type marker stdoutPart : String) : String :=
  let part1 := takeBeforeFirst marker.data (afterFirst marker.data stdoutPart.data)
  let codeStr := stripWs ((stripWs part1).takeWhile fun c => !(c == '\n'))
  if shell_type = "powershell" && codeStr.head? == some '"' && codeStr.getLast? == some '"' then
    ⟨stripWs ((codeStr.drop 1).dropLast)⟩
  else ⟨codeStr⟩

/-- Result of the marker-collection loop of `run_command`
(lines 221-259): the accumulated stdout pieces, stderr pieces, the
`return_code` variable and the `marker_found` flag. -/
structure CollectResult where
  outs : List String
  errs : List String
  code : Int
  found : Bool
  deriving Repr, DecidableEq

/-- Embedding of the collection loop of `PersistentShell.run_command`
(shelly.py lines 221-259).  Each element of `chunks` is the
`(stdout_part, stderr_part)` pair returned by one `_collect_output`
call before the 30-second ceiling; the end of the list is the
ceiling.  The loop stops at the first chunk whose stdout contains the
marker, keeping the text before the marker and parsing the trailing
field as the exit code (fallback `1`); `return_code` starts at `0`. -/
def collect_loop (shell_type marker : String) : List (String × String) → CollectResult
  | [] => ⟨[], [], 0, false⟩
  | (so, se) :: rest =>
    if pyIn marker so then
      let before : String := ⟨takeBeforeFirst marker.data so.data⟩
      let code : Int :=
        match pyParseInt (extract_code_str shell_type marker so) with
        | some n => n
        | none => 1
      ⟨[before], [se], code, true⟩
    else
      let r := collect_loop shell_type marker rest
      ⟨so :: r.outs, se :: r.errs, r.code, r.found⟩

/-- Concatenation of a list of strings (`''.join`). -/
def sjoin : List String → String
  | [] => ""
  | s :: rest => s ++ sjoin rest

/-- Concatenated stdout of a chunk sequence. -/
def join_stdout (chunks : List (String × String)) : String :=
  sjoin (chunks.map Prod.fst)

/-- Concatenated stderr of a chunk sequence. -/
def join_stderr (chunks : List (String × String)) : String :=
  sjoin (chunks.map Prod.snd)

/-- Failure of the second stdin write after a broken-pipe respawn
(shelly.py lines 215-219: the second `write` is outside the `try`, so
its exception propagates to the caller). -/
inductive WriteFailure where
  | brokenPipe
  deriving Repr, DecidableEq

/-- Observable outcome of `run_command`; `stdout`, `stderr` and `code`
are the returned triple (lines 261-264), `markerFound` exposes the
loop's local `marker_found` flag (the spec's `completed`), `respawns`
counts the broken-pipe respawns taken and `written` records the texts
written to the shell's stdin. -/
structure RunResult where
  stdout : String
  stderr : String
  code : Int
  markerFound : Bool
  respawns : Nat
  written : List String
  deriving Repr, DecidableEq

/-- Embedding of `PersistentShell.run_command` (shelly.py
lines 193-264).  `firstWriteOk` / `secondWriteOk` say whether the
first stdin write and (after the one transparent respawn of
lines 215-219) the retried write succeed; `chunks` are the
`_collect_output` results as in `collect_loop`.  A second write
failure propagates (`Except.error`), everything else returns the
rstripped accumulated output and exit code. -/
def run_command (shell_type marker command : String) (firstWriteOk secondWriteOk : Bool)
    (chunks : List (String × String)) : Except WriteFailure RunResult :=
  let full := full_command shell_type marker command
  if firstWriteOk then
    let r := collect_loop shell_type marker chunks
    .ok ⟨pyRstrip (sjoin r.outs), pyRstrip (sjoin r.errs), r.code, r.found, 0, [full]⟩
  else if secondWriteOk then
    let r := collect_loop shell_type marker chunks
    .ok ⟨pyRstrip (sjoin r.outs), pyRstrip (sjoin r.errs), r.code, r.found, 1, [full, full]⟩
  else
    .error .brokenPipe

/-- Embedding of `Shelly._format_command_output` (shelly.py
lines 606-624). -/
def format_command_output (command stdout stderr : String) (returncode : Int) : String :=
  let o1 := "$ " ++ command ++ "\n"
  let o2 := if stdout ≠ "" then o1 ++ pyRstrip stdout else o1
  let o3 :=
    if stderr ≠ "" ∧ returncode ≠ 0 then
      (if stdout ≠ "" then o2 ++ "\n" else o2) ++ "Error: " ++ pyRstrip stderr
    else o2
  if stdout = "" ∧ stderr = "" then
    if returncode = 0 then o3 ++ "(no output)"
    else o3 ++ "Error: Command failed with exit code " ++ toString returncode
  else o3

example : pyParseInt "17" = some 17 := by decide
example : pyParseInt " -3 " = some (-3) := by decide
example : pyParseInt "1_0" = some 10 := by decide
example : pyParseInt "" = none := by decide
example : pyParseInt "x7" = none := by decide
example : extract_code_str "bash" "MK" "hello\nMK 0\n" = "0" := by decide
example : extract_code_str "powershell" "MK" "out\nMK \"3\"\n" = "3" := by decide
example : run_command "bash" "MK" "false" true true [("", ""), ("MK 1\n", "")] =
    .ok ⟨"", "", 1, true, 0, ["false\necho MK $?\n"]⟩ := rfl
example : run_command "bash" "MK" "echo hi" true true [("hi\nMK 0\n", "")] =
    .ok ⟨"hi", "", 0, true, 0, ["echo hi\necho MK $?\n"]⟩ := rfl
example : format_command_output "true" "" "warn" 0 = "$ true\n" := by decide
example : format_command_output "true" "" "" 0 = "$ true\n(no output)" := by decide
example : format_command_output "x" "out" "bad" 2 = "$ x\nout\nError: bad" := by decide

theorem listPrefixB_iff (a b : List Char) : listPrefixB a b = true ↔ ∃ t, b = a ++ t := by
  induction a generalizing b with
  | nil => simp [listPrefixB]
  | cons x xs ih =>
    cases b with
    | nil => simp [listPrefixB]
    | cons y ys =>
      simp only [listPrefixB, Bool.and_eq_true, beq_iff_eq, ih, List.cons_append,
        List.cons.injEq]
      constructor
      · rintro ⟨rfl, t, rfl⟩
        exact ⟨t, rfl, rfl⟩
      · rintro ⟨t, rfl, rfl⟩
        exact ⟨rfl, t, rfl⟩

theorem hasSub_iff (n h : List Char) : hasSub n h = true ↔ ∃ x y, h = x ++ n ++ y := by
  induction h with
  | nil =>
    simp only [hasSub, listPrefixB_iff]
    constructor
    · rintro ⟨t, ht⟩
      exact ⟨[], t, by simpa using ht⟩
    · rintro ⟨x, y, hxy⟩
      have h1 : x ++ n ++ y = [] := hxy.symm
      simp only [List.append_eq_nil] at h1
      exact ⟨[], by simp [h1.1.2]⟩
  | cons c rest ih =>
    simp only [hasSub, Bool.or_eq_true, listPrefixB_iff, ih]
    constructor
    · rintro (⟨t, ht⟩ | ⟨x, y, rfl⟩)
      · exact ⟨[], t, by simpa using ht⟩
      · exact ⟨c :: x, y, rfl⟩
    · rintro ⟨x, y, hxy⟩
      cases x with
      | nil => exact Or.inl ⟨y, by simpa using hxy⟩
      | cons c' x' =>
        simp only [List.cons_append, List.cons.injEq] at hxy
        exact Or.inr ⟨x', y, hxy.2⟩

theorem hasSub_of_parts (n x y : List Char) : hasSub n (x ++ n ++ y) = true :=
  (hasSub_iff n _).mpr ⟨x, y, rfl⟩

theorem mem_dropEndWs_ws (l : List Char) : ∀ c ∈ (l.reverse.takeWhile isPyWs).reverse, isPyWs c = true := by
  intro c hc
  exact List.mem_takeWhile_imp (List.mem_reverse.mp hc)

theorem dropEndWs_decomp (l : List Char) :
    l = dropEndWs l ++ (l.reverse.takeWhile isPyWs).reverse := by
  have h := List.takeWhile_append_dropWhile (p := isPyWs) (l := l.reverse)
  calc l = l.reverse.reverse := (List.reverse_reverse l).symm
    _ = (l.reverse.takeWhile isPyWs ++ l.reverse.dropWhile isPyWs).reverse := by rw [h]
    _ = dropEndWs l ++ (l.reverse.takeWhile isPyWs).reverse := by
        rw [List.reverse_append]; rfl

theorem stripWs_decomp (l : List Char) :
    ∃ p q, l = p ++ stripWs l ++ q ∧ (∀ c ∈ p, isPyWs c = true) ∧ (∀ c ∈ q, isPyWs c = true) := by
  refine ⟨l.takeWhile isPyWs, ((l.dropWhile isPyWs).reverse.takeWhile isPyWs).reverse, ?_, ?_, ?_⟩
  · conv_lhs => rw [← List.takeWhile_append_dropWhile (p := isPyWs) (l := l)]
    rw [List.append_assoc]
    congr 1
    exact dropEndWs_decomp _
  · intro c hc; exact List.mem_takeWhile_imp hc
  · exact mem_dropEndWs_ws _

theorem shave_ws (n : List Char) (hn : ∀ c ∈ n, isPyWs c = false) (hne : n ≠ []) :
    ∀ (p : List Char), (∀ c ∈ p, isPyWs c = true) →
    ∀ (x y r : List Char), x ++ n ++ y = p ++ r → ∃ x', x = p ++ x' ∧ x' ++ n ++ y = r := by
  intro p
  induction p with
  | nil =>
    intro _ x y r heq
    exact ⟨x, rfl, by simpa using heq⟩
  | cons a p' ih =>
    intro hp x y r heq
    cases x with
    | nil =>
      cases n with
      | nil => exact absurd rfl hne
      | cons n0 n1 =>
        simp only [List.nil_append, List.cons_append, List.cons.injEq] at heq
        have h0 : isPyWs n0 = false := hn n0 (by simp)
        have ha : isPyWs a = true := hp a (by simp)
        rw [heq.1] at h0
        rw [h0] at ha
        exact absurd ha (by simp)
    | cons b x' =>
      simp only [List.cons_append, List.cons.injEq] at heq
      obtain ⟨x'', hx, hr⟩ :=
        ih (fun c hc => hp c (by simp [hc])) x' y r heq.2
      exact ⟨x'', by simp [heq.1, hx], hr⟩

theorem hasSub_stripWs (n l : List Char) (hn : ∀ c ∈ n, isPyWs c = false) (hne : n ≠ [])
    (h : hasSub n l = true) : hasSub n (stripWs l) = true := by
  obtain ⟨x, y, hxy⟩ := (hasSub_iff n l).mp h
  obtain ⟨p, q, hl, hp, hq⟩ := stripWs_decomp l
  rw [hl, List.append_assoc] at hxy
  obtain ⟨x', hx, hr⟩ := shave_ws n hn hne p hp x y (stripWs l ++ q) hxy.symm
  have hrev : y.reverse ++ n.reverse ++ x'.reverse = q.reverse ++ (stripWs l).reverse := by
    have := congrArg List.reverse hr
    simpa [List.reverse_append, List.append_assoc] using this
  have hnrev : ∀ c ∈ n.reverse, isPyWs c = false := fun c hc => hn c (List.mem_reverse.mp hc)
  have hnerev : n.reverse ≠ [] := by simpa using hne
  have hqrev : ∀ c ∈ q.reverse, isPyWs c = true := fun c hc => hq c (List.mem_reverse.mp hc)
  obtain ⟨y', hy, hcore⟩ :=
    shave_ws n.reverse hnrev hnerev q.reverse hqrev y.reverse x'.reverse (stripWs l).reverse hrev
  have hfin : x' ++ (n ++ y'.reverse) = stripWs l := by
    have := congrArg List.reverse hcore
    simpa [List.reverse_append, List.append_assoc] using this
  rw [← hfin, ← List.append_assoc]
  exact hasSub_of_parts n x' y'.reverse

theorem hasSub_of_stripWs (n l : List Char) (h : hasSub n (stripWs l) = true) :
    hasSub n l = true := by
  obtain ⟨x, y, hxy⟩ := (hasSub_iff n _).mp h
  obtain ⟨p, q, hl, _, _⟩ := stripWs_decomp l
  rw [hl, hxy]
  rw [(by simp [List.append_assoc] : p ++ (x ++ n ++ y) ++ q = (p ++ x) ++ n ++ (y ++ q))]
  exact hasSub_of_parts n (p ++ x) (y ++ q)

theorem hasSub_of_drop (n l : List Char) (k : Nat) (h : hasSub n (l.drop k) = true) :
    hasSub n l = true := by
  obtain ⟨x, y, hxy⟩ := (hasSub_iff n _).mp h
  rw [← List.take_append_drop k l, hxy]
  rw [(by simp [List.append_assoc] : l.take k ++ (x ++ n ++ y) = (l.take k ++ x) ++ n ++ y)]
  exact hasSub_of_parts n (l.take k ++ x) y

theorem pyIn_args_part (op command : String) (h : pyIn op (args_part command) = true) :
    pyIn op command = true := by
  unfold pyIn at h ⊢
  unfold args_part pyStrip at h
  exact hasSub_of_stripWs _ _
    (hasSub_of_drop _ _ _ (hasSub_of_stripWs _ _ h))

theorem strData (a b : String) : (a ++ b).data = a.data ++ b.data := rfl

theorem strExt {a b : String} (h : a.data = b.data) : a = b := by
  cases a; cases b; exact congrArg String.mk h

/-- C3 (amended): when a command's leading token equals a single-word
allow-list entry and the remainder after it contains none of the fixed
shell operators, `_is_greenlisted` accepts the command even when that
remainder contains a mutation/force flag such as `--force`: the code
checks only shell operators, and no disallowed-flag check exists in
`_is_greenlisted` (shelly.py lines 561-582). -/
theorem greenlist_flags_not_checked (greenlist : List String) (command g : String)
    (hmem : g ∈ greenlist) (hsingle : pyIn " " g = false) (hbase : base_command command = g)
    (hops : ∀ op ∈ shell_operators, pyIn op (args_part command) = false)
    (hforce : pyIn "--force" (args_part command) = true) :
    is_greenlisted false greenlist command = true := by
  unfold is_greenlisted
  simp only [Bool.false_eq_true, if_false, List.any_eq_true]
  refine ⟨g, hmem, ?_⟩
  rw [hsingle]
  simp only [Bool.false_eq_true, if_false, Bool.and_eq_true, beq_iff_eq,
    Bool.not_eq_true', List.any_eq_false]
  exact ⟨hbase, fun op hop => by simp [hops op hop]⟩

/-- C3 counterexample to the claim as stated: `git push --force` has
the allow-listed leading token `git`, its remainder contains the
disallowed-flag `--force`, and yet `_is_greenlisted` auto-allows
it. -/
theorem greenlist_flags_cex :
    is_greenlisted false ["git"] "git push --force" = true ∧
      pyIn "--force" "git push --force" = true := by constructor <;> decide

/-- C3 witness. -/
theorem greenlist_flags_not_checked_witness :
    is_greenlisted false ["ls"] "ls --force -a" = true :=
  greenlist_flags_not_checked ["ls"] "ls --force -a" "ls" (by decide) (by decide)
    (by decide) (by decide) (by decide)

/-- C6: when the first stdin write hits a broken pipe, `run_command`
respawns the shell exactly once and resends the same full command
text; when the retried write also fails, the failure propagates to the
caller with no further retry (shelly.py lines 212-219). -/
theorem run_command_broken_pipe_retry (st marker cmd : String)
    (chunks : List (String × String)) :
    (∃ r : RunResult, run_command st marker cmd false true chunks = .ok r ∧
        r.respawns = 1 ∧
        r.written = [full_command st marker cmd, full_command st marker cmd]) ∧
    run_command st marker cmd false false chunks = .error WriteFailure.brokenPipe := by
  exact ⟨⟨_, rfl, rfl, rfl⟩, rfl⟩

/-- C7: for every shell type, the text written to stdin is exactly the
command followed by a suffix that is terminated by a newline and
contains both the unique marker and the dialect's exit-status variable
(`%ERRORLEVEL%` for cmd, `$LASTEXITCODE` for powershell, `$?`
otherwise), shelly.py lines 200-214. -/
theorem full_command_protocol (st cmd marker : String) :
    ∃ suffix : String, full_command st marker cmd = cmd ++ suffix ∧
      (∃ pre : List Char, suffix.data = pre ++ ['\n']) ∧
      (∃ a b : List Char, suffix.data = a ++ marker.data ++ b) ∧
      (∃ a b : List Char, suffix.data = a ++ (exit_status_var st).data ++ b) := by
  unfold full_command exit_status_var
  by_cases h1 : st = "cmd"
  · simp only [if_pos h1]
    refine ⟨"\necho " ++ marker ++ " %ERRORLEVEL%\n", ?_, ?_, ?_, ?_⟩
    · exact strExt (by simp [strData, List.append_assoc])
    · exact ⟨"\necho ".data ++ marker.data ++ " %ERRORLEVEL%".data,
        by simp [strData, List.append_assoc]⟩
    · exact ⟨"\necho ".data, " %ERRORLEVEL%\n".data, by simp [strData]⟩
    · exact ⟨"\necho ".data ++ marker.data ++ " ".data, "\n".data,
        by simp [strData, List.append_assoc]⟩
  · by_cases h2 : st = "powershell"
    · simp only [if_neg h1, if_pos h2]
      refine ⟨"; $LastExitCodeFromCmd = $LASTEXITCODE; echo \"" ++ marker
        ++ " $LastExitCodeFromCmd\"\n", ?_, ?_, ?_, ?_⟩
      · exact strExt (by simp [strData, List.append_assoc])
      · exact ⟨"; $LastExitCodeFromCmd = $LASTEXITCODE; echo \"".data ++ marker.data
          ++ " $LastExitCodeFromCmd\"".data, by simp [strData, List.append_assoc]⟩
      · exact ⟨"; $LastExitCodeFromCmd = $LASTEXITCODE; echo \"".data,
          " $LastExitCodeFromCmd\"\n".data, by simp [strData]⟩
      · exact ⟨"; $LastExitCodeFromCmd = ".data,
          "; echo \"".data ++ marker.data ++ " $LastExitCodeFromCmd\"\n".data,
          by simp [strData, List.append_assoc]⟩
    · simp only [if_neg h1, if_neg h2]
      refine ⟨"\necho " ++ marker ++ " $?\n", ?_, ?_, ?_, ?_⟩
      · exact strExt (by simp [strData, List.append_assoc])
      · exact ⟨"\necho ".data ++ marker.data ++ " $?".data,
          by simp [strData, List.append_assoc]⟩
      · exact ⟨"\necho ".data, " $?\n".data, by simp [strData]⟩
      · exact ⟨"\necho ".data ++ marker.data ++ " ".data, "\n".data,
          by simp [strData, List.append_assoc]⟩

theorem collect_skip (st marker : String) (pre tail : List (String × String))
    (h : ∀ p ∈ pre, pyIn marker p.1 = false) :
    collect_loop st marker (pre ++ tail) =
      ⟨pre.map Prod.fst ++ (collect_loop st marker tail).outs,
       pre.map Prod.snd ++ (collect_loop st marker tail).errs,
       (collect_loop st marker tail).code, (collect_loop st marker tail).found⟩ := by
  induction pre with
  | nil => simp
  | cons p ps ih =>
    obtain ⟨so, se⟩ := p
    have hso : pyIn marker so = false := h (so, se) (by simp)
    simp [collect_loop, hso, ih (fun q hq => h q (by simp [hq]))]

theorem pyIn_of_mem_join (marker : String) (chunks : List (String × String))
    (p : String × String) (hp : p ∈ chunks) (h : pyIn marker p.1 = true) :
    pyIn marker (join_stdout chunks) = true := by
  induction chunks with
  | nil => simp at hp
  | cons c cs ih =>
    rcases List.mem_cons.mp hp with rfl | hp'
    · obtain ⟨x, y, hxy⟩ := (hasSub_iff _ _).mp h
      unfold pyIn join_stdout
      simp only [List.map_cons, sjoin, strData, hxy]
      rw [(by simp [List.append_assoc] :
        (x ++ marker.data ++ y) ++ (sjoin (cs.map Prod.fst)).data
          = x ++ marker.data ++ (y ++ (sjoin (cs.map Prod.fst)).data))]
      exact hasSub_of_parts _ _ _
    · obtain ⟨x, y, hxy⟩ := (hasSub_iff _ _).mp (ih hp')
      unfold pyIn join_stdout
      simp only [List.map_cons, sjoin, strData]
      unfold join_stdout at hxy
      rw [hxy]
      rw [(by simp [List.append_assoc] :
        c.1.data ++ (x ++ marker.data ++ y) = (c.1.data ++ x) ++ marker.data ++ y)]
      exact hasSub_of_parts _ _ _

/-- C4: when the marker never occurs in the accumulated stdout before
the ceiling, `run_command` returns normally (no exception) with the
rstripped accumulated partial stdout/stderr, and the `marker_found`
flag — the spec's `completed` — is false (shelly.py lines 221-264). -/
theorem run_command_soft_timeout (st marker cmd : String) (chunks : List (String × String))
    (h : pyIn marker (join_stdout chunks) = false) :
    ∃ r : RunResult, run_command st marker cmd true true chunks = .ok r ∧
      r.markerFound = false ∧ r.stdout = pyRstrip (join_stdout chunks) ∧
      r.stderr = pyRstrip (join_stderr chunks) := by
  have hall : ∀ p ∈ chunks, pyIn marker p.1 = false := by
    intro p hp
    by_contra hc
    have ht : pyIn marker p.1 = true := by
      revert hc; cases pyIn marker p.1 <;> simp
    rw [pyIn_of_mem_join marker chunks p hp ht] at h
    exact absurd h (by simp)
  have hcl : collect_loop st marker chunks =
      ⟨chunks.map Prod.fst, chunks.map Prod.snd, 0, false⟩ := by
    have := collect_skip st marker chunks [] hall
    simpa [collect_loop] using this
  exact ⟨_, rfl, by simp [run_command, hcl],
    by simp [run_command, hcl, join_stdout], by simp [run_command, hcl, join_stderr]⟩

/-- C4 witness. -/
theorem run_command_soft_timeout_witness :
    ∃ r : RunResult, run_command "bash" "MK" "sleep 60" true true
        [("partial ", ""), ("out\n", "warn\n")] = .ok r ∧
      r.markerFound = false ∧ r.stdout = pyRstrip (join_stdout [("partial ", ""), ("out\n", "warn\n")]) ∧
      r.stderr = pyRstrip (join_stderr [("partial ", ""), ("out\n", "warn\n")]) :=
  run_command_soft_timeout "bash" "MK" "sleep 60"
    [("partial ", ""), ("out\n", "warn\n")] (by decide)

/-- C10: when the marker is never seen in any collected stdout chunk,
the `return_code` variable keeps its initial value `0`, so the
returned exit code of a timed-out command is exactly `0` — the same
value a successful command reports (shelly.py lines 221-264). -/
theorem run_command_timeout_code (st marker cmd : String) (chunks : List (String × String))
    (h : ∀ p ∈ chunks, pyIn marker p.1 = false) :
    ∃ r : RunResult, run_command st marker cmd true true chunks = .ok r ∧
      r.code = 0 ∧ r.markerFound = false := by
  have hcl : collect_loop st marker chunks =
      ⟨chunks.map Prod.fst, chunks.map Prod.snd, 0, false⟩ := by
    have := collect_skip st marker chunks [] h
    simpa [collect_loop] using this
  exact ⟨_, rfl, by simp [run_command, hcl], by simp [run_command, hcl]⟩

/-- C10 witness. -/
theorem run_command_timeout_code_witness :
    ∃ r : RunResult, run_command "bash" "MK" "sleep 60" true true [("still running\n", "")]
        = .ok r ∧ r.code = 0 ∧ r.markerFound = false :=
  run_command_timeout_code "bash" "MK" "sleep 60" [("still running\n", "")] (by decide)

/-- C5: when a chunk contains the marker but the trailing field does
not parse as an integer, `run_command` does not raise: the exit code
is coerced to the fixed fallback value `1` (shelly.py lines 249-254)
and the marker counts as found. -/
theorem run_command_malformed_exit (st marker cmd : String)
    (pre : List (String × String)) (so se : String) (rest : List (String × String))
    (hpre : ∀ p ∈ pre, pyIn marker p.1 = false) (hso : pyIn marker so = true)
    (hparse : pyParseInt (extract_code_str st marker so) = none) :
    ∃ r : RunResult,
      run_command st marker cmd true true (pre ++ (so, se) :: rest) = .ok r ∧
      r.markerFound = true ∧ r.code = 1 := by
  have hcl : collect_loop st marker ((so, se) :: rest) =
      ⟨[⟨takeBeforeFirst marker.data so.data⟩], [se], 1, true⟩ := by
    simp [collect_loop, hso, hparse]
  have hskip := collect_skip st marker pre ((so, se) :: rest) hpre
  rw [hcl] at hskip
  exact ⟨_, rfl, by simp [run_command, hskip], by simp [run_command, hskip]⟩

/-- C5 witness: the trailing field `b` is not an integer and the exit
code comes back as the fallback `1`. -/
theorem run_command_malformed_exit_witness :
    ∃ r : RunResult, run_command "bash" "MK" "cmd" true true [("a MK b\n", "")] = .ok r ∧
      r.markerFound = true ∧ r.code = 1 :=
  run_command_malformed_exit "bash" "MK" "cmd" [] "a MK b\n" "" []
    (by decide) (by decide) (by decide)

/-- C9: `_format_command_output` includes stderr text only when the
exit code is nonzero.  With exit code `0` the result depends on stderr
only through its emptiness test and never contains the stderr text;
with a nonzero exit code and non-empty stderr the rstripped stderr is
appended after `Error: ` (shelly.py lines 606-624). -/
theorem format_output_stderr_gating (c s e : String) (rc : Int) :
    (rc = 0 → format_command_output c s e rc =
      "$ " ++ c ++ "\n" ++ pyRstrip s ++ (if s = "" ∧ e = "" then "(no output)" else ""))
    ∧ (rc ≠ 0 → e ≠ "" → format_command_output c s e rc =
      "$ " ++ c ++ "\n" ++ pyRstrip s ++ (if s = "" then "" else "\n")
        ++ "Error: " ++ pyRstrip e) := by
  have hre : pyRstrip "" = "" := rfl
  constructor
  · intro h0
    subst h0
    unfold format_command_output
    by_cases hs : s = ""
    · by_cases he : e = ""
      · subst hs he
        simp [hre]
      · subst hs
        simp [he, hre]
    · by_cases he : e = ""
      · subst he
        simp [hs]
      · simp [hs, he]
  · intro hrc he
    unfold format_command_output
    by_cases hs : s = ""
    · subst hs
      simp [he, hrc, hre]
    · simp [hs, he, hrc]

/-- C9 witness: a command exiting 0 with stderr text has that text
omitted; a failing command keeps it. -/
theorem format_output_stderr_gating_witness :
    format_command_output "true" "ok" "warning" 0 = "$ true\nok" ∧
      format_command_output "x" "out" "bad" 2 = "$ x\nout\nError: bad" := by
  constructor
  · have h := (format_output_stderr_gating "true" "ok" "warning" 0).1 rfl
    rw [h]; decide
  · have h := (format_output_stderr_gating "x" "out" "bad" 2).2 (by decide) (by decide)
    rw [h]; decide

theorem splitNl_ne_nil (l : List Char) : splitNl l ≠ [] := by
  induction l with
  | nil => simp [splitNl]
  | cons c rest ih =>
    unfold splitNl
    by_cases hc : c = '\n'
    · simp [hc]
    · simp only [if_neg hc]
      rcases h : splitNl rest with _ | ⟨h1, t⟩ <;> simp

theorem joinNl_cons (p : List Char) (ps : List (List Char)) (h : ps ≠ []) :
    joinNl (p :: ps) = p ++ '\n' :: joinNl ps := by
  cases ps with
  | nil => exact absurd rfl h
  | cons q qs => rfl

theorem joinNl_splitNl (l : List Char) : joinNl (splitNl l) = l := by
  induction l with
  | nil => rfl
  | cons c rest ih =>
    unfold splitNl
    by_cases hc : c = '\n'
    · simp only [if_pos hc]
      rw [joinNl_cons [] (splitNl rest) (splitNl_ne_nil rest), ih, hc]
      rfl
    · simp only [if_neg hc]
      rcases h : splitNl rest with _ | ⟨h1, t⟩
      · exact absurd h (splitNl_ne_nil rest)
      · rw [h] at ih
        cases t with
        | nil =>
          simp only [joinNl] at ih ⊢
          rw [ih]
        | cons q qs =>
          rw [joinNl_cons (c :: h1) (q :: qs) (by simp),
            List.cons_append, ← joinNl_cons h1 (q :: qs) (by simp), ih]

theorem no_nl_of_mem_splitNl (l : List Char) (p : List Char) (hp : p ∈ splitNl l) :
    ∀ c ∈ p, c ≠ '\n' := by
  induction l generalizing p with
  | nil =>
    simp [splitNl] at hp
    simp [hp]
  | cons c rest ih =>
    unfold splitNl at hp
    by_cases hc : c = '\n'
    · rw [if_pos hc] at hp
      rcases List.mem_cons.mp hp with rfl | hp'
      · simp
      · exact ih p hp'
    · rw [if_neg hc] at hp
      rcases h : splitNl rest with _ | ⟨h1, t⟩
      · exact absurd h (splitNl_ne_nil rest)
      · rw [h] at hp
        rcases List.mem_cons.mp hp with rfl | hp'
        · intro d hd
          rcases List.mem_cons.mp hd with rfl | hd'
          · exact hc
          · exact ih h1 (by rw [h]; exact List.mem_cons_self h1 t) d hd'
        · exact ih p (by rw [h]; exact List.mem_cons_of_mem h1 hp')

theorem splitNl_no_nl (l : List Char) (h : ∀ c ∈ l, c ≠ '\n') : splitNl l = [l] := by
  induction l with
  | nil => rfl
  | cons c rest ih =>
    unfold splitNl
    rw [if_neg (h c (by simp)), ih (fun d hd => h d (by simp [hd]))]

theorem splitNl_cons_ne (c : Char) (rest : List Char) (hc : c ≠ '\n') :
    splitNl (c :: rest) = (c :: (splitNl rest).headD []) :: (splitNl rest).tail := by
  have h1 : splitNl (c :: rest) = match splitNl rest with
      | [] => [[c]]
      | h :: t => (c :: h) :: t := by
    rw [splitNl, if_neg hc]
  rw [h1]
  rcases h : splitNl rest with _ | ⟨p, ps⟩
  · exact absurd h (splitNl_ne_nil rest)
  · rfl

theorem splitNl_append_nl (p t : List Char) (h : ∀ c ∈ p, c ≠ '\n') :
    splitNl (p ++ '\n' :: t) = p :: splitNl t := by
  induction p with
  | nil => simp [splitNl]
  | cons a p' ih =>
    have ha : a ≠ '\n' := h a (by simp)
    have hrec := ih (fun d hd => h d (by simp [hd]))
    rw [List.cons_append, splitNl_cons_ne a _ ha, hrec]
    simp

theorem splitNl_joinNl (ps : List (List Char)) (hne : ps ≠ [])
    (h : ∀ p ∈ ps, ∀ c ∈ p, c ≠ '\n') : splitNl (joinNl ps) = ps := by
  induction ps with
  | nil => exact absurd rfl hne
  | cons p qs ih =>
    cases qs with
    | nil => exact splitNl_no_nl p (h p (by simp))
    | cons q qs' =>
      rw [joinNl_cons p (q :: qs') (by simp),
        splitNl_append_nl p (joinNl (q :: qs')) (h p (by simp)),
        ih (by simp) (fun r hr => h r (by simp [hr]))]

theorem length_splitNl (l : List Char) : (splitNl l).length = l.count '\n' + 1 := by
  induction l with
  | nil => rfl
  | cons c rest ih =>
    unfold splitNl
    by_cases hc : c = '\n'
    · rw [if_pos hc]
      simp [hc, ih, List.count_cons]
    · rw [if_neg hc]
      rcases h : splitNl rest with _ | ⟨h1, t⟩
      · exact absurd h (splitNl_ne_nil rest)
      · rw [h] at ih
        simp only [List.length_cons] at ih ⊢
        rw [List.count_cons]
        simp [hc, ih]

theorem strMk_eta (s : String) : (⟨s.data⟩ : String) = s := strExt rfl

theorem charStage_not_fired (mc : Nat) (l : List Char) (h : ¬ l.length > mc) :
    charStage mc l = (l, false) := by
  unfold charStage
  rw [if_neg h]

theorem charStage_fired_big (mc : Nat) (l : List Char) (h : l.length > mc) :
    mc < ((charStage mc l).1).length := by
  unfold charStage
  rw [if_pos h]
  simp only [List.length_append]
  have h30 : charMsg.data.length = 30 := by decide
  by_cases hmc : mc = 0
  · subst hmc
    unfold lastHalfSlice
    simp only [if_pos rfl]
    omega
  · unfold lastHalfSlice
    rw [if_neg hmc]
    have h1 : (l.take (mc / 2)).length = mc / 2 := by
      rw [List.length_take]; omega
    have h2 : (l.drop (l.length - (mc + 1) / 2)).length = (mc + 1) / 2 := by
      rw [List.length_drop]; omega
    omega

theorem truncate_output_fst (m mc : Nat) (x : String) :
    (truncate_output m mc x).1 =
      ⟨(charStage mc (joinNl (lineStage m (splitNl x.data)).1)).1⟩ := rfl

/-- C2 (amended): for a positive line ceiling, re-applying
`_truncate_output` with the same ceilings is a no-op whenever the
first application's result is within the character ceiling (in
particular whenever the character-count stage did not fire); when the
character stage fires, or the line ceiling is `0`, a second
application can change the text again. -/
theorem truncate_output_idem (m mc : Nat) (x : String) (hm : 1 ≤ m)
    (hle : ((truncate_output m mc x).1).length ≤ mc) :
    (truncate_output m mc ((truncate_output m mc x).1)).1 = (truncate_output m mc x).1 := by
  by_cases hfire : (splitNl x.data).length > m
  · -- the line stage fired on the first pass
    have hmne : m ≠ 0 := by omega
    have hl1 : lineStage m (splitNl x.data) =
        ((splitNl x.data).take (m / 2) ++ [[], truncMsg.data, []]
          ++ lastHalfSlice m (splitNl x.data), true) := by
      unfold lineStage
      rw [if_pos hfire]
    have hAlen : ((splitNl x.data).take (m / 2)).length = m / 2 := by
      rw [List.length_take]; omega
    have hBlen : (lastHalfSlice m (splitNl x.data)).length = (m + 1) / 2 := by
      unfold lastHalfSlice
      rw [if_neg hmne, List.length_drop]
      omega
    by_cases hcf : (joinNl ((splitNl x.data).take (m / 2) ++ [[], truncMsg.data, []]
        ++ lastHalfSlice m (splitNl x.data))).length > mc
    · exfalso
      have hbig := charStage_fired_big mc _ hcf
      rw [truncate_output_fst, hl1] at hle
      have hle' : ((charStage mc (joinNl ((splitNl x.data).take (m / 2)
          ++ [[], truncMsg.data, []] ++ lastHalfSlice m (splitNl x.data)))).1).length ≤ mc :=
        hle
      omega
    · have hc1 := charStage_not_fired mc _ hcf
      have hy : (truncate_output m mc x).1 = ⟨joinNl ((splitNl x.data).take (m / 2)
          ++ [[], truncMsg.data, []] ++ lastHalfSlice m (splitNl x.data))⟩ := by
        rw [truncate_output_fst, hl1, hc1]
      -- pieces of the truncated line list contain no newline
      have hnl : ∀ p ∈ (splitNl x.data).take (m / 2) ++ [[], truncMsg.data, []]
          ++ lastHalfSlice m (splitNl x.data), ∀ c ∈ p, c ≠ '\n' := by
        intro p hp
        rcases List.mem_append.mp hp with hp1 | hpB
        · rcases List.mem_append.mp hp1 with hpA | hpmid
          · exact no_nl_of_mem_splitNl x.data p (List.mem_of_mem_take hpA)
          · rcases List.mem_cons.mp hpmid with rfl | hpmid'
            · simp
            · rcases List.mem_cons.mp hpmid' with rfl | hpmid''
              · decide
              · rcases List.mem_cons.mp hpmid'' with rfl | hx
                · simp
                · simp at hx
        · have hpB' : p ∈ splitNl x.data := by
            unfold lastHalfSlice at hpB
            rw [if_neg hmne] at hpB
            exact List.mem_of_mem_drop hpB
          exact no_nl_of_mem_splitNl x.data p hpB'
      have hsplit : splitNl (joinNl ((splitNl x.data).take (m / 2) ++ [[], truncMsg.data, []]
          ++ lastHalfSlice m (splitNl x.data))) =
          (splitNl x.data).take (m / 2) ++ [[], truncMsg.data, []]
          ++ lastHalfSlice m (splitNl x.data) := by
        refine splitNl_joinNl _ (by simp) hnl
      have hlen2 : ((splitNl x.data).take (m / 2) ++ [[], truncMsg.data, []]
          ++ lastHalfSlice m (splitNl x.data)).length = m + 3 := by
        simp only [List.length_append, hAlen, hBlen, List.length_cons, List.length_nil]
        omega
      have hfire2 : ((splitNl x.data).take (m / 2) ++ [[], truncMsg.data, []]
          ++ lastHalfSlice m (splitNl x.data)).length > m := by omega
      have htake2 : ((splitNl x.data).take (m / 2) ++ [[], truncMsg.data, []]
          ++ lastHalfSlice m (splitNl x.data)).take (m / 2)
          = (splitNl x.data).take (m / 2) := by
        rw [List.append_assoc]
        exact List.take_left' hAlen
      have hdrop2 : lastHalfSlice m ((splitNl x.data).take (m / 2) ++ [[], truncMsg.data, []]
          ++ lastHalfSlice m (splitNl x.data)) = lastHalfSlice m (splitNl x.data) := by
        unfold lastHalfSlice
        rw [if_neg hmne, if_neg hmne]
        have harith : ((splitNl x.data).take (m / 2) ++ [[], truncMsg.data, []]
            ++ (splitNl x.data).drop ((splitNl x.data).length - (m + 1) / 2)).length
            - (m + 1) / 2
            = ((splitNl x.data).take (m / 2) ++ [[], truncMsg.data, []]).length := by
          simp only [List.length_append, hAlen, List.length_cons, List.length_nil,
            List.length_drop]
          omega
        rw [harith]
        exact List.drop_left _ _
      have hl2 : lineStage m ((splitNl x.data).take (m / 2) ++ [[], truncMsg.data, []]
          ++ lastHalfSlice m (splitNl x.data)) =
          ((splitNl x.data).take (m / 2) ++ [[], truncMsg.data, []]
            ++ lastHalfSlice m (splitNl x.data), true) := by
        unfold lineStage
        rw [if_pos hfire2, htake2, hdrop2]
      rw [hy, truncate_output_fst]
      show (⟨(charStage mc (joinNl (lineStage m (splitNl (joinNl _)) ).1)).1⟩ : String) = _
      rw [hsplit, hl2, hc1]
  · -- the line stage did not fire: the first result is `x` itself
    have hl1 : lineStage m (splitNl x.data) = (splitNl x.data, false) := by
      unfold lineStage
      rw [if_neg hfire]
    by_cases hcf : x.data.length > mc
    · exfalso
      have hbig := charStage_fired_big mc x.data hcf
      rw [truncate_output_fst, hl1] at hle
      simp only [joinNl_splitNl] at hle
      have hle' : ((charStage mc x.data).1).length ≤ mc := hle
      omega
    · have hy : (truncate_output m mc x).1 = x := by
        rw [truncate_output_fst, hl1]
        simp only [joinNl_splitNl, charStage_not_fired mc x.data hcf]
      rw [hy]
      exact hy

/-- C2 witness: for ceilings `(2, 100)` the first application's output
is within the character ceiling and re-application is a no-op. -/
theorem truncate_output_idem_witness :
    (truncate_output 2 100 ((truncate_output 2 100 "a\nb\nc").1)).1
      = (truncate_output 2 100 "a\nb\nc").1 :=
  truncate_output_idem 2 100 "a\nb\nc" (by decide) (by decide)

/-- C2 counterexample to the claim as stated: with ceilings `(6, 10)`
(both positive) the character-count stage fires, and applying
`_truncate_output` a second time to its own output changes the text
again — the routine is not idempotent for every pair of ceilings. -/
theorem truncate_output_idem_cex :
    (truncate_output 6 10 ((truncate_output 6 10 "\n\n\n\n\nABCDEF").1)).1
      ≠ ((truncate_output 6 10 "\n\n\n\n\nABCDEF").1) := by decide

theorem mem_of_mem_lastHalfSlice {α : Type} (m : Nat) (l : List α) (p : α)
    (hp : p ∈ lastHalfSlice m l) : p ∈ l := by
  unfold lastHalfSlice at hp
  by_cases hm : m = 0
  · rw [if_pos hm] at hp
    exact hp
  · rw [if_neg hm] at hp
    exact List.mem_of_mem_drop hp

theorem truncList_no_nl (m : Nat) (ls : List (List Char))
    (hls : ∀ p ∈ ls, ∀ c ∈ p, c ≠ '\n') :
    ∀ p ∈ ls.take (m / 2) ++ [[], truncMsg.data, []] ++ lastHalfSlice m ls,
      ∀ c ∈ p, c ≠ '\n' := by
  intro p hp
  rcases List.mem_append.mp hp with hp1 | hpB
  · rcases List.mem_append.mp hp1 with hpA | hpmid
    · exact hls p (List.mem_of_mem_take hpA)
    · rcases List.mem_cons.mp hpmid with rfl | h2
      · simp
      · rcases List.mem_cons.mp h2 with rfl | h3
        · decide
        · rcases List.mem_cons.mp h3 with rfl | h4
          · simp
          · simp at h4
  · exact hls p (mem_of_mem_lastHalfSlice m ls p hpB)

theorem truncate_output_eq (m mc : Nat) (x : String) :
    truncate_output m mc x =
      (⟨(charStage mc (joinNl (lineStage m (splitNl x.data)).1)).1⟩,
        (lineStage m (splitNl x.data)).2
          || (charStage mc (joinNl (lineStage m (splitNl x.data)).1)).2) := rfl

theorem charStage_fired_count (mc : Nat) (hmcne : mc ≠ 0) (z : List Char)
    (h : z.length > mc) :
    ((charStage mc z).1).length = mc + 30 ∧
    ((charStage mc z).1).count '\n' ≤ z.count '\n' + 4 := by
  have hc1 : charStage mc z =
      (z.take (mc / 2) ++ charMsg.data ++ lastHalfSlice mc z, true) := by
    unfold charStage
    rw [if_pos h]
  have hPlen : (z.take (mc / 2)).length = mc / 2 := by
    rw [List.length_take]; omega
  have hSlen : (lastHalfSlice mc z).length = (mc + 1) / 2 := by
    unfold lastHalfSlice
    rw [if_neg hmcne, List.length_drop]
    omega
  have h30 : charMsg.data.length = 30 := by decide
  have h4 : charMsg.data.count '\n' = 4 := by decide
  constructor
  · rw [hc1]
    simp only [List.length_append, hPlen, hSlen, h30]
    omega
  · rw [hc1]
    simp only [List.count_append, h4]
    have hsum : (z.take (mc / 2)).count '\n' + (z.drop (mc / 2)).count '\n'
        = z.count '\n' := by
      rw [← List.count_append, List.take_append_drop]
    have hS : (z.drop (mc / 2)).drop (z.length - (mc + 1) / 2 - mc / 2)
        = z.drop (z.length - (mc + 1) / 2) := by
      rw [List.drop_drop]
      congr 1
      omega
    have hSle : (lastHalfSlice mc z).count '\n' ≤ (z.drop (mc / 2)).count '\n' := by
      unfold lastHalfSlice
      rw [if_neg hmcne, ← hS]
      exact List.Sublist.count_le (List.drop_sublist _ _) _
    omega

theorem lineStage_out (m : Nat) (hm : 1 ≤ m) (x : String) :
    splitNl (joinNl (lineStage m (splitNl x.data)).1) = (lineStage m (splitNl x.data)).1 ∧
    ((lineStage m (splitNl x.data)).1).length ≤ m + 3 ∧
    ((splitNl x.data).length > m →
      (lineStage m (splitNl x.data)).1 =
        (splitNl x.data).take (m / 2) ++ [[], truncMsg.data, []]
          ++ lastHalfSlice m (splitNl x.data)) := by
  have hmne : m ≠ 0 := by omega
  by_cases hfire : (splitNl x.data).length > m
  · have hl1 : lineStage m (splitNl x.data) =
        ((splitNl x.data).take (m / 2) ++ [[], truncMsg.data, []]
          ++ lastHalfSlice m (splitNl x.data), true) := by
      unfold lineStage
      rw [if_pos hfire]
    have hAlen : ((splitNl x.data).take (m / 2)).length = m / 2 := by
      rw [List.length_take]; omega
    have hBlen : (lastHalfSlice m (splitNl x.data)).length = (m + 1) / 2 := by
      unfold lastHalfSlice
      rw [if_neg hmne, List.length_drop]
      omega
    refine ⟨?_, ?_, fun _ => by rw [hl1]⟩
    · rw [hl1]
      exact splitNl_joinNl _ (by simp)
        (truncList_no_nl m _ (no_nl_of_mem_splitNl x.data))
    · rw [hl1]
      simp only [List.length_append, List.length_cons, List.length_nil, hAlen, hBlen]
      omega
  · have hl1 : lineStage m (splitNl x.data) = (splitNl x.data, false) := by
      unfold lineStage
      rw [if_neg hfire]
    refine ⟨?_, ?_, fun h => absurd h hfire⟩
    · rw [hl1, joinNl_splitNl]
    · rw [hl1]
      show (splitNl x.data).length ≤ m + 3
      omega

/-- C8 (amended): for positive ceilings the limiter's output is
bounded — but by `max_chars + 30` characters and `max_lines + 7`
lines, not by the ceilings themselves, because both truncation stages
re-insert omission markers on top of the kept halves.  Text within
both ceilings passes through unchanged; when the line count exceeds
the ceiling (and the character stage does not fire) the result is
exactly the first `max_lines/2` lines, a three-line omission marker,
and the last `(max_lines+1)/2` lines; the character stage is applied
after the line stage. -/
theorem truncate_output_bounds (m mc : Nat) (x : String) (hm : 1 ≤ m) (hmc : 1 ≤ mc) :
    ((truncate_output m mc x).1).length ≤ mc + 30 ∧
    (splitNl ((truncate_output m mc x).1).data).length ≤ m + 7 ∧
    ((splitNl x.data).length ≤ m → x.length ≤ mc → truncate_output m mc x = (x, false)) ∧
    ((splitNl x.data).length > m → ((truncate_output m mc x).1).length ≤ mc →
      splitNl ((truncate_output m mc x).1).data =
        (splitNl x.data).take (m / 2) ++ [[], truncMsg.data, []]
          ++ lastHalfSlice m (splitNl x.data)) := by
  have hmcne : mc ≠ 0 := by omega
  obtain ⟨hrt, hlen3, hfired_eq⟩ := lineStage_out m hm x
  have hxdl : x.length = x.data.length := rfl
  by_cases hcf : (joinNl (lineStage m (splitNl x.data)).1).length > mc
  · obtain ⟨hclen, hccount⟩ := charStage_fired_count mc hmcne _ hcf
    have hfst : ((truncate_output m mc x).1).data
        = (charStage mc (joinNl (lineStage m (splitNl x.data)).1)).1 := by
      rw [truncate_output_fst]
    have hxlen : ((truncate_output m mc x).1).length
        = ((charStage mc (joinNl (lineStage m (splitNl x.data)).1)).1).length := by
      rw [truncate_output_fst]
      rfl
    refine ⟨?_, ?_, ?_, ?_⟩
    · omega
    · rw [hfst, length_splitNl]
      have hcnt_out2 : (joinNl (lineStage m (splitNl x.data)).1).count '\n' + 1
          = ((lineStage m (splitNl x.data)).1).length := by
        rw [← length_splitNl, hrt]
      omega
    · intro h1 h2
      exfalso
      have hl1 : lineStage m (splitNl x.data) = (splitNl x.data, false) := by
        unfold lineStage
        rw [if_neg (by omega)]
      rw [hl1] at hcf
      simp only [joinNl_splitNl] at hcf
      omega
    · intro _ h2
      exfalso
      omega
  · have hc1 : charStage mc (joinNl (lineStage m (splitNl x.data)).1)
        = (joinNl (lineStage m (splitNl x.data)).1, false) := charStage_not_fired _ _ hcf
    have hfst : ((truncate_output m mc x).1).data
        = joinNl (lineStage m (splitNl x.data)).1 := by
      rw [truncate_output_fst, hc1]
    have hxlen : ((truncate_output m mc x).1).length
        = (joinNl (lineStage m (splitNl x.data)).1).length := by
      rw [truncate_output_fst, hc1]
      rfl
    refine ⟨?_, ?_, ?_, ?_⟩
    · omega
    · rw [hfst, hrt]
      omega
    · intro h1 h2
      have hl1 : lineStage m (splitNl x.data) = (splitNl x.data, false) := by
        unfold lineStage
        rw [if_neg (by omega)]
      have hc2 : charStage mc x.data = (x.data, false) :=
        charStage_not_fired _ _ (by omega)
      rw [truncate_output_eq, hl1]
      simp only [joinNl_splitNl]
      rw [hc2]
      simp [strMk_eta]
    · intro h1 h2
      rw [hfst, hrt, hfired_eq h1]

/-- C8 witness. -/
theorem truncate_output_bounds_witness :
    ((truncate_output 2 50 "a\nb\nc").1).length ≤ 50 + 30 ∧
    (splitNl ((truncate_output 2 50 "a\nb\nc").1).data).length ≤ 2 + 7 ∧
    ((splitNl ("a\nb\nc" : String).data).length ≤ 2 → ("a\nb\nc" : String).length ≤ 50 →
      truncate_output 2 50 "a\nb\nc" = ("a\nb\nc", false)) ∧
    ((splitNl ("a\nb\nc" : String).data).length > 2 →
      ((truncate_output 2 50 "a\nb\nc").1).length ≤ 50 →
      splitNl ((truncate_output 2 50 "a\nb\nc").1).data =
        (splitNl ("a\nb\nc" : String).data).take (2 / 2) ++ [[], truncMsg.data, []]
          ++ lastHalfSlice 2 (splitNl ("a\nb\nc" : String).data)) :=
  truncate_output_bounds 2 50 "a\nb\nc" (by decide) (by decide)

/-- C8 counterexample to the claim as stated: with a line ceiling of 2
the returned text has 5 lines, so the output is not bounded by the
maximum permitted number of lines. -/
theorem truncate_output_bounds_cex :
    2 < (splitNl ((truncate_output 2 1000 "a\nb\nc").1).data).length := by decide

theorem splitWsAll_ne_nil (l : List Char) : splitWsAll l ≠ [] := by
  induction l with
  | nil => simp [splitWsAll]
  | cons c rest ih =>
    unfold splitWsAll
    by_cases hc : isPyWs c = true
    · simp [hc]
    · simp only [if_neg hc]
      rcases h : splitWsAll rest with _ | ⟨h1, t⟩ <;> simp

theorem splitWsAll_cons_ne (c : Char) (rest : List Char) (hc : ¬ isPyWs c = true) :
    splitWsAll (c :: rest) =
      (c :: (splitWsAll rest).headD []) :: (splitWsAll rest).tail := by
  have h1 : splitWsAll (c :: rest) = match splitWsAll rest with
      | [] => [[c]]
      | h :: t => (c :: h) :: t := by
    rw [splitWsAll, if_neg hc]
  rw [h1]
  rcases h : splitWsAll rest with _ | ⟨p, ps⟩
  · exact absurd h (splitWsAll_ne_nil rest)
  · rfl

theorem splitWsAll_head (l : List Char) :
    ∃ t, splitWsAll l = (l.takeWhile fun c => !isPyWs c) :: t := by
  induction l with
  | nil => exact ⟨[], rfl⟩
  | cons c rest ih =>
    by_cases hc : isPyWs c = true
    · refine ⟨splitWsAll rest, ?_⟩
      rw [splitWsAll, if_pos hc]
      simp [List.takeWhile_cons, hc]
    · obtain ⟨t, ht⟩ := ih
      refine ⟨t, ?_⟩
      rw [splitWsAll_cons_ne c rest hc, ht]
      simp [List.takeWhile_cons, hc]

theorem head_dropWhile_not (p : Char → Bool) (l : List Char) (c : Char) (t : List Char)
    (h : l.dropWhile p = c :: t) : p c = false := by
  induction l with
  | nil => simp at h
  | cons a l' ih =>
    by_cases ha : p a = true
    · rw [List.dropWhile_cons, if_pos ha] at h
      exact ih h
    · rw [List.dropWhile_cons, if_neg ha] at h
      rcases h with ⟨rfl, rfl⟩
      revert ha
      cases p c <;> simp

theorem stripWs_head_not_ws (l : List Char) (c : Char) (t : List Char)
    (h : stripWs l = c :: t) : ¬ isPyWs c = true := by
  have hd := dropEndWs_decomp (l.dropWhile isPyWs)
  rw [show dropEndWs (l.dropWhile isPyWs) = stripWs l from rfl, h, List.cons_append] at hd
  have := head_dropWhile_not isPyWs l c _ hd
  simp [this]

theorem drop_length_takeWhile (p : Char → Bool) (l : List Char) :
    l.drop (l.takeWhile p).length = l.dropWhile p := by
  induction l with
  | nil => rfl
  | cons a l' ih =>
    by_cases ha : p a = true
    · rw [List.takeWhile_cons, if_pos ha, List.dropWhile_cons, if_pos ha,
        List.length_cons, List.drop_succ_cons, ih]
    · rw [List.takeWhile_cons, if_neg ha, List.dropWhile_cons, if_neg ha]
      rfl

theorem base_command_data (command : String) :
    (base_command command).data
      = (stripWs command.data).takeWhile (fun c => !isPyWs c) := by
  have hgoal : base_command command
      = (((splitWsAll (stripWs command.data)).filter
          (fun p => !p.isEmpty)).map String.mk).headD "" := rfl
  rw [hgoal]
  cases hcore : stripWs command.data with
  | nil => simp [splitWsAll]
  | cons c core' =>
    have hc : ¬ isPyWs c = true := stripWs_head_not_ws command.data c core' hcore
    obtain ⟨t, ht⟩ := splitWsAll_head (c :: core')
    rw [ht]
    have hpc : (!isPyWs c) = true := by
      revert hc; cases isPyWs c <;> simp
    rw [List.takeWhile_cons, if_pos hpc]
    simp [List.filter_cons]

theorem args_part_data (command : String) :
    (args_part command).data
      = stripWs ((stripWs command.data).dropWhile (fun c => !isPyWs c)) := by
  show stripWs ((stripWs command.data).drop (base_command command).length) = _
  rw [show (base_command command).length = (base_command command).data.length from rfl,
    base_command_data, drop_length_takeWhile]

theorem shell_operators_facts : ∀ op ∈ shell_operators,
    (∀ c ∈ op.data, isPyWs c = false) ∧ op.data ≠ [] ∧ op.data.length ≤ 2 := by decide

theorem occ_split (gd rest opd x y : List Char)
    (heq : x ++ opd ++ y = gd ++ rest) :
    (∃ u v, gd = u ++ opd ++ v) ∨
    (∃ u v, rest = u ++ opd ++ v) ∨
    (x.length < gd.length ∧ gd.length < x.length + opd.length ∧
      gd = x ++ opd.take (gd.length - x.length) ∧
      rest = opd.drop (gd.length - x.length) ++ y) := by
  have hgd : gd = (x ++ opd ++ y).take gd.length := by
    rw [heq, List.take_left]
  have hrest : rest = (x ++ opd ++ y).drop gd.length := by
    rw [heq, List.drop_left]
  rcases le_or_lt (x.length + opd.length) gd.length with hle | hgt
  · left
    have hxo : (x ++ opd ++ y).take (x.length + opd.length) = x ++ opd := by
      rw [show x.length + opd.length = (x ++ opd).length by simp, List.take_left]
    have hgdtake : gd.take (x.length + opd.length) = x ++ opd := by
      rw [← hxo, heq, List.take_append_of_le_length hle]
    refine ⟨x, gd.drop (x.length + opd.length), ?_⟩
    rw [← hgdtake]
    exact (List.take_append_drop _ gd).symm
  · rcases le_or_lt gd.length x.length with hle2 | hgt2
    · right; left
      refine ⟨x.drop gd.length, y, ?_⟩
      rw [hrest, List.append_assoc, List.drop_append_of_le_length hle2,
        ← List.append_assoc]
    · right; right
      have hk : gd.length = x.length + (gd.length - x.length) := by omega
      refine ⟨hgt2, by omega, ?_, ?_⟩
      · conv_lhs => rw [hgd]
        rw [List.append_assoc]
        conv_lhs => rw [hk]
        rw [List.take_append, List.take_append_of_le_length (by omega)]
      · conv_lhs => rw [hrest]
        rw [List.append_assoc]
        conv_lhs => rw [hk]
        rw [List.drop_append, List.drop_append_of_le_length (by omega)]

theorem single_branch_no_op (command op : String)
    (hopmem : op ∈ shell_operators)
    (hgop : pyIn op (base_command command) = false)
    (hargs : pyIn op (args_part command) = false)
    (hopcmd : pyIn op command = true) : False := by
  obtain ⟨hnws, hne, _⟩ := shell_operators_facts op hopmem
  have hcore : hasSub op.data (stripWs command.data) = true :=
    hasSub_stripWs op.data command.data hnws hne hopcmd
  obtain ⟨x, y, hxy⟩ := (hasSub_iff _ _).mp hcore
  have hsplitcore : stripWs command.data
      = (base_command command).data
        ++ (stripWs command.data).dropWhile (fun c => !isPyWs c) := by
    rw [base_command_data, List.takeWhile_append_dropWhile]
  rcases occ_split (base_command command).data
      ((stripWs command.data).dropWhile (fun c => !isPyWs c)) op.data x y
      (hxy.symm.trans hsplitcore) with h1 | h2 | h3
  · obtain ⟨u, v, huv⟩ := h1
    have hsub : hasSub op.data (base_command command).data = true := by
      rw [huv]
      exact hasSub_of_parts _ _ _
    unfold pyIn at hgop
    rw [hsub] at hgop
    simp at hgop
  · obtain ⟨u, v, huv⟩ := h2
    have hrest : hasSub op.data ((stripWs command.data).dropWhile (fun c => !isPyWs c))
        = true := by
      rw [huv]
      exact hasSub_of_parts _ _ _
    have hargsdata : hasSub op.data (args_part command).data = true := by
      rw [args_part_data]
      exact hasSub_stripWs _ _ hnws hne hrest
    unfold pyIn at hargs
    rw [hargsdata] at hargs
    simp at hargs
  · obtain ⟨hlt1, hlt2, _, hresteq⟩ := h3
    rcases hd : op.data.drop ((base_command command).data.length - x.length)
      with _ | ⟨d, dt⟩
    · have hlen := congrArg List.length hd
      simp only [List.length_drop, List.length_nil] at hlen
      omega
    · have hdmem : d ∈ op.data := by
        have hmm : d ∈ op.data.drop ((base_command command).data.length - x.length) := by
          rw [hd]
          simp
        exact List.mem_of_mem_drop hmm
      have hrest2 : (stripWs command.data).dropWhile (fun c => !isPyWs c)
          = d :: (dt ++ y) := by
        rw [hresteq, hd]
        simp
      have hws := head_dropWhile_not (fun c => !isPyWs c) (stripWs command.data)
        d (dt ++ y) hrest2
      simp [hnws d hdmem] at hws

theorem multi_branch_no_op (command g op : String)
    (hopmem : op ∈ shell_operators)
    (hgops : ∀ o ∈ shell_operators, pyIn o g = false)
    (hgend : g.data.getLast? ≠ some '$')
    (hpref : listPrefixB g.data (pyStrip command).data = true)
    (hrem : pyIn op (remaining_after g (pyStrip command)) = false)
    (hopcmd : pyIn op command = true) : False := by
  obtain ⟨hnws, hne, hlen2⟩ := shell_operators_facts op hopmem
  have hcore : hasSub op.data (stripWs command.data) = true :=
    hasSub_stripWs op.data command.data hnws hne hopcmd
  obtain ⟨x, y, hxy⟩ := (hasSub_iff _ _).mp hcore
  obtain ⟨t, htt⟩ := (listPrefixB_iff _ _).mp hpref
  have hsplitcore : stripWs command.data = g.data ++ t := htt
  have ht2 : t = (stripWs command.data).drop g.data.length := by
    rw [hsplitcore, List.drop_left]
  rcases occ_split g.data t op.data x y (hxy.symm.trans hsplitcore) with h1 | h2 | h3
  · obtain ⟨u, v, huv⟩ := h1
    have hsub : hasSub op.data g.data = true := by
      rw [huv]
      exact hasSub_of_parts _ _ _
    have hg := hgops op hopmem
    unfold pyIn at hg
    rw [hsub] at hg
    simp at hg
  · obtain ⟨u, v, huv⟩ := h2
    have hin_t : hasSub op.data t = true := by
      rw [huv]
      exact hasSub_of_parts _ _ _
    have hremdata : (remaining_after g (pyStrip command)).data
        = stripWs ((stripWs command.data).drop g.data.length) := rfl
    have hsub : hasSub op.data (remaining_after g (pyStrip command)).data = true := by
      rw [hremdata, ← ht2]
      exact hasSub_stripWs _ _ hnws hne hin_t
    unfold pyIn at hrem
    rw [hsub] at hrem
    simp at hrem
  · obtain ⟨hlt1, hlt2, hgdeq, _⟩ := h3
    have hn : g.data.length - x.length = 1 := by omega
    rw [hn] at hgdeq
    have hmem := hopmem
    simp only [shell_operators, List.mem_cons, List.not_mem_nil, or_false] at hmem
    rcases hmem with rfl | rfl | rfl | rfl | rfl | rfl | rfl | rfl | rfl
    · have hl1 : (";" : String).data.length = 1 := by decide
      omega
    · -- "&&": the entry ends with '&', itself an operator
      have htake : ("&&" : String).data.take 1 = ('&' : Char) :: [] := by decide
      rw [htake] at hgdeq
      have hsub : hasSub ("&" : String).data g.data = true := by
        rw [hgdeq, show x ++ ['&'] = x ++ ("&" : String).data ++ [] by simp]
        exact hasSub_of_parts _ _ _
      have hg := hgops "&" (by decide)
      unfold pyIn at hg
      rw [hsub] at hg
      simp at hg
    · -- "||": the entry ends with '|', itself an operator
      have htake : ("||" : String).data.take 1 = ('|' : Char) :: [] := by decide
      rw [htake] at hgdeq
      have hsub : hasSub ("|" : String).data g.data = true := by
        rw [hgdeq, show x ++ ['|'] = x ++ ("|" : String).data ++ [] by simp]
        exact hasSub_of_parts _ _ _
      have hg := hgops "|" (by decide)
      unfold pyIn at hg
      rw [hsub] at hg
      simp at hg
    · have hl1 : ("|" : String).data.length = 1 := by decide
      omega
    · have hl1 : (">" : String).data.length = 1 := by decide
      omega
    · have hl1 : ("<" : String).data.length = 1 := by decide
      omega
    · have hl1 : ("&" : String).data.length = 1 := by decide
      omega
    · -- "$(": the entry ends with '$'
      have htake : ("$(" : String).data.take 1 = ('$' : Char) :: [] := by decide
      rw [htake] at hgdeq
      have hlast : g.data.getLast? = some '$' := by
        rw [hgdeq]
        exact List.getLast?_concat _
      exact hgend hlast
    · have hl1 : ("`" : String).data.length = 1 := by decide
      omega

/-- C1 (amended): with the validate-all flag off, (a) a command whose
leading token equals a single-word allow-list entry and which contains
no shell operator is auto-allowed; and (b) provided additionally that
no allow-list entry contains a shell operator or ends in `$`, every
command containing a shell operator is rejected.  Without the entry
conditions part (b) is false: an operator occurring inside a matched
entry, or a `$(` straddling the end of a matched multi-word entry, is
never inspected (shelly.py lines 561-582). -/
theorem greenlist_operator_gate (greenlist : List String) (command : String) :
    ((∃ g, g ∈ greenlist ∧ pyIn " " g = false ∧ base_command command = g) →
      (∀ op ∈ shell_operators, pyIn op command = false) →
      is_greenlisted false greenlist command = true) ∧
    ((∀ g ∈ greenlist, (∀ op ∈ shell_operators, pyIn op g = false) ∧
        g.data.getLast? ≠ some '$') →
      ∀ op ∈ shell_operators, pyIn op command = true →
      is_greenlisted false greenlist command = false) := by
  constructor
  · rintro ⟨g, hg, hgs, hbase⟩ hnoop
    unfold is_greenlisted
    simp only [Bool.false_eq_true, if_false, List.any_eq_true]
    refine ⟨g, hg, ?_⟩
    rw [hgs]
    simp only [Bool.false_eq_true, if_false, Bool.and_eq_true, beq_iff_eq,
      Bool.not_eq_true', List.any_eq_false]
    refine ⟨hbase, fun op hop => ?_⟩
    simp only [Bool.not_eq_true]
    by_contra hc
    have hc' : pyIn op (args_part command) = true := by
      revert hc
      cases pyIn op (args_part command) <;> simp
    have hcmd := pyIn_args_part op command hc'
    rw [hnoop op hop] at hcmd
    exact absurd hcmd (by simp)
  · intro hent op hop hopc
    by_contra hc
    have htrue : is_greenlisted false greenlist command = true := by
      revert hc
      cases is_greenlisted false greenlist command <;> simp
    unfold is_greenlisted at htrue
    simp only [Bool.false_eq_true, if_false, List.any_eq_true] at htrue
    obtain ⟨g, hg, hcond⟩ := htrue
    obtain ⟨hgops, hgend⟩ := hent g hg
    by_cases hsp : pyIn " " g = true
    · rw [if_pos hsp] at hcond
      simp only [Bool.and_eq_true, Bool.not_eq_true', List.any_eq_false] at hcond
      obtain ⟨hpref, hnoops⟩ := hcond
      exact multi_branch_no_op command g op hop hgops hgend hpref
        (by simpa using hnoops op hop) hopc
    · rw [if_neg hsp] at hcond
      simp only [Bool.and_eq_true, beq_iff_eq, Bool.not_eq_true', List.any_eq_false] at hcond
      obtain ⟨hbase, hnoops⟩ := hcond
      exact single_branch_no_op command op hop (by rw [hbase]; exact hgops op hop)
        (by simpa using hnoops op hop) hopc

/-- C1 witness: both directions at concrete inputs. -/
theorem greenlist_operator_gate_witness :
    is_greenlisted false ["ls", "pwd"] "ls -la /tmp" = true ∧
    is_greenlisted false ["ls", "pwd"] "ls /tmp | cat" = false := by
  constructor
  · exact (greenlist_operator_gate ["ls", "pwd"] "ls -la /tmp").1
      ⟨"ls", by decide, by decide, by decide⟩ (by decide)
  · exact (greenlist_operator_gate ["ls", "pwd"] "ls /tmp | cat").2
      (by decide) "|" (by decide) (by decide)

/-- C1 counterexample to the claim as stated: a command containing the
command-substitution opener `$(` is nonetheless auto-allowed when the
configured entry `echo $` matches as a literal prefix — the operator
check never inspects the matched prefix or its boundary. -/
theorem greenlist_operator_gate_cex :
    pyIn "$(" "echo $(rm -rf /tmp/x)" = true ∧
    is_greenlisted false ["echo $"] "echo $(rm -rf /tmp/x)" = true := by
  constructor <;> decide
